import Mathlib

/-!
Verification of the Genz-Keister sparse-grid quadrature construction
(`src/genzkeister.h`, `src/switch.h`) of the Kronrod-Extension-Library.

Shallow embedding conventions:
* `arb`/`mag` interval numbers are modelled as `Ball` (exact rational
  midpoint and radius) where the midpoint/radius distinction matters
  (`maxminsort`, `check_accuracy`), and as exact rationals `ℚ` where only
  the computed value matters (`compute_weightfactors`, `compute_nodes`,
  `compute_weights`, `genz_keister_construction`); `arb_set`/`arb_neg` are
  exact even in arb, and the remaining arithmetic is modelled at infinite
  working precision.
* `fmpz`/`fmpq` exact integers and rationals become `ℤ`/`ℚ`; `fmpq_poly`
  becomes a coefficient list `List ℚ`.
* The combinatorial enumerators (`enumerators.h`) and the extension engine
  internals (`libkes2.h`) are not part of the two source files; they are
  modelled from the specification, as marked in their doc comments.
* C loops become folds or structural recursions; the C left shift
  `2 << e` is modelled by `2 <<< e` on `ℕ`.
-/

/-- An arb-style ball: midpoint plus radius, over exact rationals. -/
structure Ball where
  mid : ℚ
  rad : ℚ
deriving DecidableEq

/-- Element access `t[j]` for a vector of balls (junk value for an
out-of-range index, which no verified path exercises). -/
def ballAt (t : List Ball) (j : ℕ) : Ball := t.getD j ⟨0, 0⟩

/-- The index selected by one scan of the `maxminsort` while-loop body
(`genzkeister.h` lines 44-56): starting from the first element, on a
`largest` turn the candidate index moves whenever `mid I <= mid it`
(so equal midpoints move it: the last maximum wins), dually on a
smallest turn. -/
def selectIdx (largest : Bool) (t : List Ball) : ℕ :=
  (List.range t.length).foldl (fun I j =>
    if largest then (if (ballAt t I).mid ≤ (ballAt t j).mid then j else I)
    else (if (ballAt t j).mid ≤ (ballAt t I).mid then j else I)) 0

/-- The `maxminsort` while loop (`genzkeister.h` lines 42-61): repeatedly
move the selected element from `t` to the output, alternating the turn.
The fuel argument is instantiated with `t.length`. -/
def maxminLoop : ℕ → Bool → List Ball → List Ball
  | 0, _, _ => []
  | fuel+1, largest, t =>
    if t.isEmpty then [] else
      ballAt t (selectIdx largest t) ::
        maxminLoop fuel (!largest) (t.eraseIdx (selectIdx largest t))

/-- `maxminsort` (`genzkeister.h` lines 32-62): keep the roots whose real
ball is entirely nonnegative (`arb_is_nonnegative`: midpoint − radius ≥ 0),
then alternate extracting the largest-midpoint and smallest-midpoint
remaining candidate.  The source appends to its output parameter `generators`; the
model returns the appended segment. -/
def maxminsort (g : List Ball) : List Ball :=
  let t := g.filter (fun b => decide (b.rad ≤ b.mid))
  maxminLoop t.length true t

/-- Scalar `check_accuracy` (`genzkeister.h` lines 354-366): a ball passes
the target precision iff its radius compares strictly below `2^(-prec)`. -/
def check_accuracy (a : Ball) (prec : ℤ) : Bool :=
  if (2 : ℚ) ^ (-prec) ≤ a.rad then false else true

/-- Aggregate `check_accuracy` (`genzkeister.h` lines 369-392): every
coordinate of every node and every weight must pass the scalar test.
(C++ overloads the name; Lean needs a second name.) -/
def check_accuracy_rule (nodes : List (List Ball)) (weights : List Ball)
    (target_prec : ℤ) : Bool :=
  (nodes.all fun nd => nd.all fun c => check_accuracy c target_prec) &&
  (weights.all fun w => check_accuracy w target_prec)

/-- Modelled from the spec: the external enumerator `LatticePoints(D, n)`
(`enumerators.h` is not among the source files) — the finite,
duplicate-free sequence of all D-tuples of nonnegative integers summing
to `n`.  The same enumeration also underlies `Partitions(D, K)` below. -/
def compositions : ℕ → ℕ → List (List ℕ)
  | 0, K => if K = 0 then [[]] else []
  | D+1, K =>
    ((List.range (K+1)).map
      (fun i => (compositions D (K - i)).map (fun t => i :: t))).flatten

/-- Modelled from the spec: `LatticePoints(D, n)`, lazy finite sequence of
D-tuples of nonnegative integers summing to `n`. -/
def latticePoints (D n : ℕ) : List (List ℕ) := compositions D n

/-- Nonincreasing test singling out the canonical representative of a
multiset of parts. -/
def nonincreasing : List ℕ → Bool
  | [] => true
  | [_] => true
  | a :: b :: r => (decide (b ≤ a)) && nonincreasing (b :: r)

/-- Modelled from the spec: the external enumerator `Partitions(D, K)` —
the duplicate-free sequence of all partitions of the integer `K` into
exactly `D` nonnegative parts (canonically ordered nonincreasingly). -/
def partitionsList (D K : ℕ) : List (List ℕ) :=
  (compositions D K).filter nonincreasing

/-- All ways of inserting `a` into a list (helper for the permutation
enumerator). -/
def insertEverywhere (a : ℕ) : List ℕ → List (List ℕ)
  | [] => [[a]]
  | b :: l => (a :: b :: l) :: (insertEverywhere a l).map (fun s => b :: s)

/-- All orderings of a list, possibly with repetitions when the list has
repeated values. -/
def permsOf : List ℕ → List (List ℕ)
  | [] => [[]]
  | a :: l => ((permsOf l).map (insertEverywhere a)).flatten

/-- Modelled from the spec: the external enumerator `Permutations(D, P)` —
the finite sequence of distinct orderings of the multiset `P`. -/
def permutationsOf (P : List ℕ) : List (List ℕ) := (permsOf P).dedup

/-- Modelled from the spec: `xi = count of zero entries in P`
(the `nz<D>` helper of `enumerators.h`). -/
def nz (P : List ℕ) : ℕ := P.countP (fun p => decide (p = 0))

/-- Modelled from the spec: `k = count of nonzero entries in P`
(the `nnz<D>` helper of `enumerators.h`). -/
def nnz (P : List ℕ) : ℕ := P.countP (fun p => decide (p ≠ 0))

/-- Modelled from the spec: `sum<D>(P)` (trivial helper of
`enumerators.h`): the sum of the parts. -/
def sumP (P : List ℕ) : ℕ := P.sum

/-- The inner loop of `compute_nodes` (`genzkeister.h` lines 233-249):
coordinate `d` is `generators[Q[d]]`, negated when the generator index is
nonzero and the sign-flip bit `(v >> u) & 1` is set; a zero index consumes
no bit (`u` advances only on nonzero indices). -/
def buildNodeAux (gens : List ℚ) (v : ℕ) : List ℕ → ℕ → List ℚ
  | [], _ => []
  | i :: rest, u =>
    if i ≠ 0 then
      (if (v >>> u) % 2 = 1 then -(gens.getD i 0) else gens.getD i 0) ::
        buildNodeAux gens v rest (u+1)
    else gens.getD i 0 :: buildNodeAux gens v rest u

/-- One symmetric node for an ordering `Q` and sign-flip pattern `v`. -/
def buildNode (gens : List ℚ) (Q : List ℕ) (v : ℕ) : List ℚ :=
  buildNodeAux gens v Q 0

/-- `compute_nodes` (`genzkeister.h` lines 210-254): for each distinct
ordering `Q` of the partition and each sign-flip pattern
`v < nsf = (xi < D ? 2 << (D-xi-1) : 1)`, emit one node. -/
def compute_nodes (P : List ℕ) (gens : List ℚ) : List (List ℚ) :=
  let D := P.length
  let xi := nz P
  let nsf := if xi < D then 2 <<< (D - xi - 1) else 1
  ((permutationsOf P).map
    (fun Q => (List.range nsf).map (fun v => buildNode gens Q v))).flatten

/-- The moment loop of `compute_weightfactors` (`genzkeister.h` lines
122-136): entry `i` is the running product `I` when `i` is even (after
which `I` is multiplied by `i+1`), and `0` when `i` is odd. -/
def momentsAux : ℕ → ℤ → ℕ → List ℤ
  | 0, _, _ => []
  | rem+1, I, i =>
    if i % 2 = 0 then I :: momentsAux rem (I * (i + 1)) (i + 1)
    else 0 :: momentsAux rem I (i + 1)

/-- The moment table of `exp(-x^2/2)` built inside `compute_weightfactors`
for a generator list of size `n`: the `2n+1` normalized moments. -/
def momentsTable (n : ℕ) : List ℤ := momentsAux (2 * n + 1) 1 0

/-- Product of the first `k` odd numbers: `1 * 3 * … * (2k−1)`. -/
def oddProd : ℕ → ℤ
  | 0 => 1
  | k+1 => oddProd k * (2 * k + 1)

/-- The double factorial `n!! = n * (n−2) * (n−4) * …`. -/
def doubleFactorial : ℕ → ℤ
  | 0 => 1
  | 1 => 1
  | n+2 => (n + 2) * doubleFactorial n

/-- Polynomial addition on coefficient lists. -/
def addPoly : List ℚ → List ℚ → List ℚ
  | [], q => q
  | p, [] => p
  | a :: p, b :: q => (a + b) :: addPoly p q

/-- Polynomial multiplication on coefficient lists (`arb_poly_mul`,
exact model). -/
def polyMul : List ℚ → List ℚ → List ℚ
  | [], _ => []
  | a :: p, q => addPoly (q.map (fun c => a * c)) (0 :: polyMul p q)

/-- The moment-weighted coefficient sum `Σ_d coeff_d(poly) · M_d`
(`genzkeister.h` lines 166-173). -/
def aCoeff (M : List ℤ) (p : List ℚ) : ℚ :=
  ((List.range p.length).map
    (fun d => p.getD d 0 * ((M.getD d 0 : ℤ) : ℚ))).sum

/-- The `a_i` loop of `compute_weightfactors` (`genzkeister.h` lines
156-181): multiply the running polynomial by `(x² − gᵢ²)` and emit the
moment-weighted sum of its coefficients.  (The snap-to-zero of an exactly
zero midpoint, lines 174-177, is the identity in this exact model.) -/
def computeAAux (M : List ℤ) : List ℚ → List ℚ → List ℚ
  | _, [] => []
  | poly, gi :: rest =>
    aCoeff M (polyMul poly [-(gi * gi), 0, 1]) ::
      computeAAux M (polyMul poly [-(gi * gi), 0, 1]) rest

/-- The coefficients `a_0 = 1, a_1, …, a_n` (`genzkeister.h` lines
138-181). -/
def computeA (g : List ℚ) (M : List ℤ) : List ℚ := 1 :: computeAAux M [1] g

/-- One row of the weight-factor table (`genzkeister.h` lines 190-204):
scanning `theta` upward, the running product `c` picks up
`(g[xi]² − g[theta]²)` whenever `theta ≠ xi`, and the entry `a_theta / c`
is written whenever `theta ≥ xi` (all other entries stay at the exact
zero the matrix was initialized with). -/
def wfRowAux (g A : List ℚ) (xi : ℕ) : ℕ → ℕ → ℚ → List ℚ
  | _, 0, _ => []
  | theta, rem+1, c =>
    (if xi ≤ theta then
       A.getD theta 0 /
         (if theta ≠ xi then
            c * (g.getD xi 0 * g.getD xi 0 - g.getD theta 0 * g.getD theta 0)
          else c)
     else 0) ::
      wfRowAux g A xi (theta + 1) rem
        (if theta ≠ xi then
           c * (g.getD xi 0 * g.getD xi 0 - g.getD theta 0 * g.getD theta 0)
         else c)

/-- `compute_weightfactors` (`genzkeister.h` lines 113-207): the
`(n+1)×(n+1)` weight-factor table. -/
def compute_weightfactors (g : List ℚ) : List (List ℚ) :=
  (List.range (g.length + 1)).map
    (fun xi => wfRowAux g (computeA g (momentsTable g.length)) xi 0
      (g.length + 1) 1)

/-- Entry access for a matrix stored as a list of rows
(`arb_mat_entry`). -/
def matEntry (M : List (List ℚ)) (i j : ℕ) : ℚ := (M.getD i []).getD j 0

/-- The accumulation loop of `compute_weights` (`genzkeister.h` lines
277-287): over all lattice points `Q` with `|Q| = K − |P|`, add the
product over dimensions of the weight-factor entries
`(P[d], P[d]+Q[d])`. -/
def weightSum (P : List ℕ) (K : ℕ) (Wf : List (List ℚ)) : ℚ :=
  (latticePoints P.length (K - sumP P)).foldl (fun Wa Q =>
    Wa + (List.range P.length).foldl
      (fun w d => w * matEntry Wf (P.getD d 0) (P.getD d 0 + Q.getD d 0)) 1) 0

/-- `compute_weights` (`genzkeister.h` lines 257-299): the accumulated
sum, divided by `2 << (k−1)` when the partition has `k > 0` nonzero
entries, returned as a one-element weight list. -/
def compute_weights (P : List ℕ) (K : ℕ) (Wf : List (List ℚ)) : List ℚ :=
  if 0 < nnz P then [weightSum P K Wf / ((2 <<< (nnz P - 1) : ℕ) : ℚ)]
  else [weightSum P K Wf]

/-- The literal 27-entry Z-sequence of `genz_keister_construction`
(`genzkeister.h` lines 321-326). -/
def Zseq : List ℕ :=
  [0, 0, 1, 0, 0, 3, 2, 1, 0, 0, 5, 4, 3, 2, 1, 0, 0, 0, 8, 7, 6, 5, 4, 3, 2, 1, 0]

/-- The admissibility sum `s = Σ_d (P[d] + Z[P[d]])` (`genzkeister.h`
lines 333-337); the source indexes `Z` with no bounds check, so a part
beyond the table is modelled as `none` (an out-of-range read). -/
def defectSum : List ℕ → Option ℕ
  | [] => some 0
  | p :: rest =>
    match Zseq.get? p, defectSum rest with
    | some z, some s => some (p + z + s)
    | _, _ => none

/-- Total variant of `defectSum`, valid on parts within the table. -/
def defectSumD (P : List ℕ) : ℕ := (P.map (fun p => p + Zseq.getD p 0)).sum

/-- The partition loop of `genz_keister_construction` (`genzkeister.h`
lines 330-348): for each enumerated partition compute `s`, and when
`s ≤ K` append the partition's nodes, each paired with the partition's
single weight `w[0]`. -/
def gkLoop (K : ℕ) (gens : List ℚ) (Wf : List (List ℚ)) :
    List (List ℕ) → List (List ℚ) × List ℚ → Option (List (List ℚ) × List ℚ)
  | [], acc => some acc
  | P :: rest, acc =>
    match defectSum P with
    | none => none
    | some s =>
      if s ≤ K then
        gkLoop K gens Wf rest
          (acc.1 ++ compute_nodes P gens,
           acc.2 ++ (compute_nodes P gens).map
             (fun _ => (compute_weights P K Wf).getD 0 0))
      else gkLoop K gens Wf rest acc

/-- `genz_keister_construction` (`genzkeister.h` lines 302-351). -/
def genz_keister_construction (D K : ℕ) (gens : List ℚ)
    (Wf : List (List ℚ)) : Option (List (List ℚ) × List ℚ) :=
  gkLoop K gens Wf (partitionsList D K) ([], [])

/-- Modelled from the spec: the consecutive solvable extension steps of
the Nested Extension Engine (`find_extension`, `libkes2.h`, is not among
the source files and is abstracted as an oracle `findExt`).  Returns the
extension polynomials found before the first unsolvable level, and
whether every requested level was solvable; the accumulated polynomial is
multiplied by each extension (`fmpq_poly_mul`). -/
def extSteps (findExt : List ℚ → ℕ → Option (List ℚ)) :
    List ℚ → List ℕ → List (List ℚ) × Bool
  | _, [] => ([], true)
  | Pn, p :: ps =>
    match findExt Pn p with
    | none => ([], false)
    | some Ep =>
      (Ep :: (extSteps findExt (polyMul Pn Ep) ps).1,
       (extSteps findExt (polyMul Pn Ep) ps).2)

/-- The extension loop of `compute_generators` (`genzkeister.h` lines
88-104): on an unsolvable level, break with the generators collected so
far; otherwise append the max-min-sorted roots of the extension and
multiply the accumulated polynomial. -/
def cgLoop (findExt : List ℚ → ℕ → Option (List ℚ))
    (rootsOf : List ℚ → List Ball) :
    List ℕ → List ℚ → List Ball → List Ball
  | [], _, G => G
  | p :: ps, Pn, G =>
    match findExt Pn p with
    | none => G
    | some Ep =>
      cgLoop findExt rootsOf ps (polyMul Pn Ep)
        (G ++ maxminsort (rootsOf Ep))

/-- Modelled from the spec: `compute_generators(levels, workingPrec)`
(`genzkeister.h` lines 65-110); `hermite_polynomial_pro` and the
root extraction `compute_nodes(acb_ptr, …)` live in `libkes2.h`, outside
the source files, and are abstracted as oracles `hermite` and `rootsOf`.
The source reads `levels[0]` unconditionally (line 80), an out-of-bounds
vector access when `levels` is empty, modelled as `none`; on a non-empty
sequence, the level-`p₀` polynomial seeds the generator list and each
further level extends it until a level is unsolvable. -/
def compute_generators (hermite : ℕ → List ℚ)
    (findExt : List ℚ → ℕ → Option (List ℚ))
    (rootsOf : List ℚ → List Ball) : List ℕ → Option (List Ball)
  | [] => none
  | p0 :: rest =>
    some (cgLoop findExt rootsOf rest (hermite p0)
      (maxminsort (rootsOf (hermite p0))))

/-- C9: the scalar `check_accuracy` returns `true` iff the radius is
strictly below `2^(-targetPrec)`, and the aggregate `check_accuracy`
returns `true` iff every coordinate of every node and every weight
individually passes that scalar test. -/
theorem check_accuracy_iff (a : Ball) (prec : ℤ)
    (nodes : List (List Ball)) (weights : List Ball) :
    (check_accuracy a prec = true ↔ a.rad < (2 : ℚ) ^ (-prec)) ∧
    (check_accuracy_rule nodes weights prec = true ↔
      ((∀ nd ∈ nodes, ∀ c ∈ nd, c.rad < (2 : ℚ) ^ (-prec)) ∧
       (∀ w ∈ weights, w.rad < (2 : ℚ) ^ (-prec)))) := by
  constructor
  · simp [check_accuracy, not_le, ite_eq_iff]
  · simp [check_accuracy_rule, check_accuracy, List.all_eq_true, not_le,
      ite_eq_iff]

/-- Concrete instance of `check_accuracy_iff`. -/
theorem check_accuracy_iff_witness :
    check_accuracy ⟨0, 1/4⟩ 1 = true ∧
    check_accuracy_rule [[⟨0, 1/4⟩]] [⟨1, 0⟩] 0 = true := by
  constructor
  · exact (check_accuracy_iff ⟨0, 1/4⟩ 1 [] []).1.mpr (by norm_num)
  · refine (check_accuracy_iff ⟨0, 1/4⟩ 0 [[⟨0, 1/4⟩]] [⟨1, 0⟩]).2.mpr
      ⟨?_, ?_⟩
    · intro nd hnd c hc
      simp only [List.mem_singleton] at hnd
      subst hnd
      simp only [List.mem_singleton] at hc
      subst hc
      norm_num
    · intro w hw
      simp only [List.mem_singleton] at hw
      subst hw
      norm_num

/-- Invariant of the selection scan: folding the last-max step over
`List.range n` yields an index below `n` that maximizes `f`, and every
later index is strictly smaller under `f`. -/
theorem foldl_lastMax_spec (f : ℕ → ℚ) :
    ∀ n : ℕ, 1 ≤ n →
      (List.range n).foldl (fun I j => if f I ≤ f j then j else I) 0 < n ∧
      (∀ j < n,
        f j ≤ f ((List.range n).foldl (fun I j => if f I ≤ f j then j else I) 0)) ∧
      (∀ j, (List.range n).foldl (fun I j => if f I ≤ f j then j else I) 0 < j →
        j < n →
        f j < f ((List.range n).foldl (fun I j => if f I ≤ f j then j else I) 0)) := by
  intro n
  induction n with
  | zero => omega
  | succ n ih =>
    intro _
    rcases Nat.eq_zero_or_pos n with hn | hn
    · subst hn
      have h1 : (List.range 1).foldl (fun I j => if f I ≤ f j then j else I) 0
          = 0 := by
        simp [List.range_succ, ite_self]
      refine ⟨by rw [h1]; omega, ?_, ?_⟩
      · intro j hj
        interval_cases j
        rw [h1]
      · intro j hj hj'
        rw [h1] at hj
        omega
    · obtain ⟨hlt, hmax, hlast⟩ := ih hn
      rw [List.range_succ, List.foldl_append, List.foldl_cons, List.foldl_nil]
      set I := (List.range n).foldl (fun I j => if f I ≤ f j then j else I) 0 with hI
      by_cases h : f I ≤ f n
      · rw [if_pos h]
        refine ⟨Nat.lt_succ_self n, ?_, ?_⟩
        · intro j hj
          rcases Nat.lt_succ_iff_lt_or_eq.mp hj with hj | hj
          · exact le_trans (hmax j hj) h
          · subst hj; exact le_refl _
        · intro j hj hj'
          omega
      · rw [if_neg h]
        push_neg at h
        refine ⟨Nat.lt_succ_of_lt hlt, ?_, ?_⟩
        · intro j hj
          rcases Nat.lt_succ_iff_lt_or_eq.mp hj with hj | hj
          · exact hmax j hj
          · subst hj; exact le_of_lt h
        · intro j hj hj'
          rcases Nat.lt_succ_iff_lt_or_eq.mp hj' with hj' | hj'
          · exact hlast j hj hj'
          · subst hj'; exact h

/-- The selected index is in range whenever the candidate list is
nonempty. -/
theorem selectIdx_lt (largest : Bool) (t : List Ball) (ht : t ≠ []) :
    selectIdx largest t < t.length := by
  have hlen : 1 ≤ t.length := List.length_pos.mpr ht
  cases largest
  · have h := (foldl_lastMax_spec (fun j => -(ballAt t j).mid) t.length hlen).1
    simpa [selectIdx, neg_le_neg_iff] using h
  · exact (foldl_lastMax_spec (fun j => (ballAt t j).mid) t.length hlen).1

/-- On a `largest` turn the scan selects a maximal-midpoint candidate,
on a smallest turn a minimal one, with ties resolved to the
last-encountered candidate (every strictly later index is strictly
worse). -/
theorem selectIdx_spec (largest : Bool) (t : List Ball) (ht : t ≠ []) :
    (∀ j < t.length,
      if largest then (ballAt t j).mid ≤ (ballAt t (selectIdx largest t)).mid
      else (ballAt t (selectIdx largest t)).mid ≤ (ballAt t j).mid) ∧
    (∀ j, selectIdx largest t < j → j < t.length →
      if largest then (ballAt t j).mid < (ballAt t (selectIdx largest t)).mid
      else (ballAt t (selectIdx largest t)).mid < (ballAt t j).mid) := by
  have hlen : 1 ≤ t.length := List.length_pos.mpr ht
  cases largest
  · obtain ⟨_, hmax, hlast⟩ :=
      foldl_lastMax_spec (fun j => -(ballAt t j).mid) t.length hlen
    have hsel : selectIdx false t =
        (List.range t.length).foldl
          (fun I j => if -(ballAt t I).mid ≤ -(ballAt t j).mid then j else I) 0 := by
      simp [selectIdx, neg_le_neg_iff]
    constructor
    · intro j hj
      have := hmax j hj
      rw [← hsel] at this
      simpa using this
    · intro j hj hj'
      rw [hsel] at hj
      have := hlast j hj hj'
      rw [← hsel] at this
      simpa using this
  · obtain ⟨_, hmax, hlast⟩ :=
      foldl_lastMax_spec (fun j => (ballAt t j).mid) t.length hlen
    exact ⟨fun j hj => by simpa [selectIdx] using hmax j hj,
      fun j hj hj' => by
        simp only [selectIdx] at hj
        simpa [selectIdx] using hlast j hj hj'⟩

/-- Extracting the selected element and consing it back is a permutation. -/
theorem cons_eraseIdx_perm (t : List Ball) (I : ℕ) (h : I < t.length) :
    (ballAt t I :: t.eraseIdx I).Perm t := by
  have h1 : ballAt t I = t[I] := List.getD_eq_getElem t ⟨0, 0⟩ h
  have h2 : t.eraseIdx I = t.take I ++ t.drop (I + 1) :=
    List.eraseIdx_eq_take_drop_succ t I
  have h3 : t.take I ++ t[I] :: t.drop (I + 1) = t := by
    rw [List.getElem_cons_drop]
    exact List.take_append_drop I t
  rw [h1, h2]
  have hp : (t[I] :: (t.take I ++ t.drop (I + 1))).Perm
      (t.take I ++ t[I] :: t.drop (I + 1)) := List.perm_middle.symm
  rw [h3] at hp
  exact hp

/-- The selection loop emits a permutation of its candidate pool. -/
theorem maxminLoop_perm :
    ∀ (fuel : ℕ) (largest : Bool) (t : List Ball), fuel = t.length →
      (maxminLoop fuel largest t).Perm t := by
  intro fuel
  induction fuel with
  | zero =>
    intro largest t h
    have : t = [] := List.length_eq_zero.mp h.symm
    subst this
    simp [maxminLoop]
  | succ n ih =>
    intro largest t h
    have ht : t ≠ [] := by
      intro hnil
      subst hnil
      simp at h
    have hE : t.isEmpty = false := by simpa [List.isEmpty_iff] using ht
    rw [maxminLoop, hE]
    simp only [Bool.false_eq_true, if_false]
    have hIlt : selectIdx largest t < t.length := selectIdx_lt largest t ht
    have hlen : n = (t.eraseIdx (selectIdx largest t)).length := by
      have := List.length_eraseIdx_add_one hIlt
      omega
    exact ((ih (!largest) _ hlen).cons _).trans (cons_eraseIdx_perm t _ hIlt)

/-- C7 (amended): `maxminsort` appends exactly the input roots whose whole
ball is nonnegative (midpoint − radius ≥ 0, i.e. `arb_is_nonnegative`),
ordered by the alternating rule; on an even ("largest") turn the selected
candidate has maximal midpoint, on an odd turn minimal midpoint, and among
midpoint ties the last-encountered candidate in scan order is selected. -/
theorem maxminsort_behavior (g : List Ball) (largest : Bool) (t : List Ball)
    (ht : t ≠ []) :
    (maxminsort g).Perm (g.filter fun b => decide (b.rad ≤ b.mid)) ∧
    selectIdx largest t < t.length ∧
    (∀ j < t.length,
      if largest then (ballAt t j).mid ≤ (ballAt t (selectIdx largest t)).mid
      else (ballAt t (selectIdx largest t)).mid ≤ (ballAt t j).mid) ∧
    (∀ j, selectIdx largest t < j → j < t.length →
      if largest then (ballAt t j).mid < (ballAt t (selectIdx largest t)).mid
      else (ballAt t (selectIdx largest t)).mid < (ballAt t j).mid) :=
  ⟨by
    simpa [maxminsort] using
      maxminLoop_perm _ true (g.filter fun b => decide (b.rad ≤ b.mid)) rfl,
   selectIdx_lt largest t ht,
   (selectIdx_spec largest t ht).1,
   (selectIdx_spec largest t ht).2⟩

/-- Concrete instance of `maxminsort_behavior`. -/
theorem maxminsort_behavior_witness :
    (maxminsort [⟨1, 0⟩, ⟨2, 0⟩, ⟨0, 1⟩]).Perm
      (([⟨1, 0⟩, ⟨2, 0⟩, ⟨0, 1⟩] : List Ball).filter
        fun b => decide (b.rad ≤ b.mid)) ∧
    selectIdx true [⟨1, 0⟩] < List.length [(⟨1, 0⟩ : Ball)] ∧
    (∀ j < List.length [(⟨1, 0⟩ : Ball)],
      if true then
        (ballAt [⟨1, 0⟩] j).mid ≤ (ballAt [⟨1, 0⟩] (selectIdx true [⟨1, 0⟩])).mid
      else
        (ballAt [⟨1, 0⟩] (selectIdx true [⟨1, 0⟩])).mid ≤ (ballAt [⟨1, 0⟩] j).mid) ∧
    (∀ j, selectIdx true [⟨1, 0⟩] < j → j < List.length [(⟨1, 0⟩ : Ball)] →
      if true then
        (ballAt [⟨1, 0⟩] j).mid < (ballAt [⟨1, 0⟩] (selectIdx true [⟨1, 0⟩])).mid
      else
        (ballAt [⟨1, 0⟩] (selectIdx true [⟨1, 0⟩])).mid < (ballAt [⟨1, 0⟩] j).mid) :=
  maxminsort_behavior [⟨1, 0⟩, ⟨2, 0⟩, ⟨0, 1⟩] true [⟨1, 0⟩] (by decide)

/-- C7 fails as stated: the ball with midpoint `0` and radius `1` has a
nonnegative midpoint yet is dropped (the code tests the whole ball, not
the midpoint), and among two kept candidates with tied midpoints the code
emits the last-encountered one first, not the first-encountered. -/
theorem maxminsort_claim_cex :
    (0 : ℚ) ≤ (Ball.mk 0 1).mid ∧
    maxminsort [Ball.mk 0 1] ≠ [Ball.mk 0 1] ∧
    maxminsort [Ball.mk 1 0, Ball.mk 1 1] ≠
      [Ball.mk 1 0, Ball.mk 1 1] := by
  refine ⟨by norm_num, by decide, by decide⟩

/-- Summing a constant over a list. -/
theorem sum_map_const_nat {α : Type} (l : List α) (c : ℕ) :
    (l.map fun _ => c).sum = l.length * c := by
  induction l with
  | nil => simp
  | cons a l ih => simp [ih, Nat.succ_mul, Nat.add_comm]

/-- Deduplicating a nonempty constant list gives a singleton. -/
theorem dedup_all_eq {α : Type} [DecidableEq α] (c : α) :
    ∀ l : List α, l ≠ [] → (∀ x ∈ l, x = c) → l.dedup = [c] := by
  intro l
  induction l with
  | nil => intro h; exact absurd rfl h
  | cons a l ih =>
    intro _ hall
    have ha : a = c := hall a (by simp)
    subst ha
    rcases eq_or_ne l [] with hl | hl
    · subst hl; simp
    · obtain ⟨b, hb⟩ := List.exists_mem_of_ne_nil l hl
      have hmem : a ∈ l := (hall b (List.mem_cons_of_mem a hb)) ▸ hb
      rw [List.dedup_cons_of_mem hmem]
      exact ih hl (fun x hx => hall x (List.mem_cons_of_mem a hx))

/-- Any insertion of `a` into `t` is a permutation of `a :: t`. -/
theorem perm_of_mem_insertEverywhere (a : ℕ) :
    ∀ t s : List ℕ, s ∈ insertEverywhere a t → s.Perm (a :: t) := by
  intro t
  induction t with
  | nil =>
    intro s hs
    simp [insertEverywhere] at hs
    subst hs
    exact List.Perm.refl _
  | cons b t ih =>
    intro s hs
    simp only [insertEverywhere, List.mem_cons, List.mem_map] at hs
    rcases hs with hs | ⟨s', hs', rfl⟩
    · subst hs; exact List.Perm.refl _
    · exact ((ih s' hs').cons b).trans (List.Perm.swap a b t)

/-- Every emitted ordering is a permutation of the input multiset. -/
theorem perm_of_mem_permsOf :
    ∀ P s : List ℕ, s ∈ permsOf P → s.Perm P := by
  intro P
  induction P with
  | nil =>
    intro s hs
    simp [permsOf] at hs
    subst hs
    exact List.Perm.refl _
  | cons a P ih =>
    intro s hs
    simp only [permsOf, List.mem_flatten, List.mem_map] at hs
    obtain ⟨_, ⟨t, ht, rfl⟩, hst⟩ := hs
    exact (perm_of_mem_insertEverywhere a t s hst).trans ((ih t ht).cons a)

/-- The permutation enumerator is never empty. -/
theorem permsOf_ne_nil : ∀ P : List ℕ, permsOf P ≠ [] := by
  intro P
  induction P with
  | nil => simp [permsOf]
  | cons a P ih =>
    obtain ⟨t, ht⟩ := List.exists_mem_of_ne_nil _ ih
    have : a :: t ∈ permsOf (a :: P) := by
      simp only [permsOf, List.mem_flatten, List.mem_map]
      refine ⟨insertEverywhere a t, ⟨t, ht, rfl⟩, ?_⟩
      cases t <;> simp [insertEverywhere]
    exact List.ne_nil_of_mem this

/-- The only distinct ordering of a constant partition is itself. -/
theorem permutationsOf_replicate (D : ℕ) (a : ℕ) :
    permutationsOf (List.replicate D a) = [List.replicate D a] := by
  refine dedup_all_eq (List.replicate D a) _ (permsOf_ne_nil _) ?_
  intro x hx
  exact List.perm_replicate.mp (perm_of_mem_permsOf _ x hx)

/-- The zero-count of the all-zero partition is the dimension. -/
theorem nz_replicate_zero (D : ℕ) : nz (List.replicate D 0) = D := by
  induction D with
  | zero => rfl
  | succ D ih =>
    rw [List.replicate_succ, nz, List.countP_cons_of_pos]
    · rw [nz] at ih; rw [ih]
    · decide

/-- Sign flips never touch the all-zero partition. -/
theorem buildNodeAux_zeros (gens : List ℚ) (v : ℕ) :
    ∀ D u : ℕ,
      buildNodeAux gens v (List.replicate D 0) u =
        List.replicate D (gens.getD 0 0) := by
  intro D
  induction D with
  | zero => intro u; rfl
  | succ D ih =>
    intro u
    rw [List.replicate_succ, List.replicate_succ, buildNodeAux]
    simp [ih]

/-- The all-zero partition yields the single node `(g₀, …, g₀)`. -/
theorem compute_nodes_replicate_zero (D : ℕ) (gens : List ℚ) :
    compute_nodes (List.replicate D 0) gens =
      [List.replicate D (gens.getD 0 0)] := by
  rw [compute_nodes, permutationsOf_replicate, nz_replicate_zero]
  simp [List.length_replicate, lt_irrefl, List.range_succ, buildNode,
    buildNodeAux_zeros]

/-- The per-partition node count of `compute_nodes`. -/
theorem compute_nodes_length (P : List ℕ) (gens : List ℚ) :
    (compute_nodes P gens).length =
      (permutationsOf P).length *
        (if nz P < P.length then 2 ^ (P.length - nz P) else 1) := by
  rw [compute_nodes, List.length_flatten, List.map_map]
  have hc : (List.length ∘ fun Q =>
      (List.range (if nz P < P.length then 2 <<< (P.length - nz P - 1) else 1)).map
        (fun v => buildNode gens Q v)) =
      fun _ => (if nz P < P.length then 2 <<< (P.length - nz P - 1) else 1) := by
    funext Q
    simp
  rw [hc, sum_map_const_nat]
  by_cases h : nz P < P.length
  · rw [if_pos h, if_pos h, Nat.shiftLeft_eq, ← pow_succ']
    congr 2
    omega
  · rw [if_neg h, if_neg h]

/-- C2 (amended): for each distinct ordering of `P`, `compute_nodes`
produces exactly `nsf` sign-flip variant nodes, where
`nsf = 2^(D−xi)` if `xi < D` and `nsf = 1` if `xi = D` (`xi` the count of
zero entries of `P`); in particular the all-zero partition yields a
single node. -/
theorem compute_nodes_count (P : List ℕ) (gens : List ℚ) (D : ℕ)
    (gens2 : List ℚ) :
    (compute_nodes P gens).length =
      (permutationsOf P).length *
        (if nz P < P.length then 2 ^ (P.length - nz P) else 1) ∧
    (compute_nodes (List.replicate D 0) gens2).length = 1 :=
  ⟨compute_nodes_length P gens, by rw [compute_nodes_replicate_zero]; rfl⟩

/-- C2 fails as stated: for `P = (1)` in dimension `1` (so `xi = 0`) with
generators `(0, 1)` there is one distinct ordering, and the code emits
`2^(D−xi) = 2` nodes for it, not `2^(D−xi−1) = 1`. -/
theorem compute_nodes_claim_cex :
    (compute_nodes [1] [0, 1]).length ≠
      (permutationsOf [1]).length *
        (if nz [1] < List.length [1]
         then 2 ^ (List.length [1] - nz [1] - 1) else 1) := by
  decide

/-- The two distinct orderings of the partition `(1,0)`. -/
theorem permutationsOf_10 : permutationsOf [1, 0] = [[1, 0], [0, 1]] := by
  decide

/-- C5: for `D = 2`, `P = (1,0)`, generator `0` equal to zero and
generator `1` a nonzero `g`, `compute_nodes` returns exactly the four
nodes `(g,0), (−g,0), (0,g), (0,−g)` with no duplicates; the zero
coordinate consumes no sign-flip bit and is never negated. -/
theorem compute_nodes_D2_P10 (gens : List ℚ) (g : ℚ)
    (h0 : gens.getD 0 0 = 0) (h1 : gens.getD 1 0 = g) (hg : g ≠ 0) :
    compute_nodes [1, 0] gens = [[g, 0], [-g, 0], [0, g], [0, -g]] ∧
    ([[g, 0], [-g, 0], [0, g], [0, -g]] : List (List ℚ)).Nodup := by
  have hgneg : g ≠ -g := fun h => hg (by linarith)
  constructor
  · rw [compute_nodes, permutationsOf_10]
    norm_num [nz, buildNode, buildNodeAux, List.range_succ]
    simp only [List.getD, List.get?_eq_getElem?] at h0 h1
    exact ⟨⟨h1, h0⟩, h0, h1⟩
  · simp only [List.nodup_cons, List.mem_cons, List.mem_singleton,
      List.not_mem_nil, List.nodup_nil, and_true, not_or]
    refine ⟨⟨?_, ?_, ?_⟩, ⟨?_, ?_⟩, ?_⟩ <;>
      simp [hg, hg.symm, hgneg, hgneg.symm, neg_eq_zero]

/-- Concrete instance of `compute_nodes_D2_P10`. -/
theorem compute_nodes_D2_P10_witness :
    compute_nodes [1, 0] [0, 1] =
      [[(1 : ℚ), 0], [-1, 0], [0, 1], [0, -1]] ∧
    ([[(1 : ℚ), 0], [-1, 0], [0, 1], [0, -1]] : List (List ℚ)).Nodup :=
  compute_nodes_D2_P10 [0, 1] 1 (by decide) (by decide) (by decide)

/-- The moment loop writes exactly `fuel` entries. -/
theorem momentsAux_length : ∀ (fuel : ℕ) (I : ℤ) (i : ℕ),
    (momentsAux fuel I i).length = fuel := by
  intro fuel
  induction fuel with
  | zero => intro I i; rfl
  | succ fuel ih =>
    intro I i
    rw [momentsAux]
    by_cases h : i % 2 = 0
    · rw [if_pos h, List.length_cons, ih]
    · rw [if_neg h, List.length_cons, ih]

/-- Starting the moment loop at the even position `2j` with running
product `oddProd j`, entry `m` is `oddProd (j + m/2)` at even offsets and
`0` at odd offsets. -/
theorem momentsAux_getD : ∀ (m fuel j : ℕ), m < fuel →
    (momentsAux fuel (oddProd j) (2 * j)).getD m 0 =
      if m % 2 = 0 then oddProd (j + m / 2) else 0 := by
  intro m
  induction m using Nat.strong_induction_on with
  | _ m ih =>
    intro fuel j hm
    match m, fuel with
    | 0, fuel+1 =>
      rw [momentsAux, if_pos (by omega)]
      simp
    | 1, fuel+1 =>
      rw [momentsAux, if_pos (by omega)]
      have h1 : fuel ≠ 0 := by omega
      obtain ⟨f, rfl⟩ := Nat.exists_eq_succ_of_ne_zero h1
      rw [List.getD_cons_succ, momentsAux, if_neg (by omega),
        List.getD_cons_zero]
      rfl
    | m+2, fuel+1 =>
      rw [momentsAux, if_pos (by omega)]
      have h1 : fuel ≠ 0 := by omega
      obtain ⟨f, rfl⟩ := Nat.exists_eq_succ_of_ne_zero h1
      rw [List.getD_cons_succ, momentsAux, if_neg (by omega),
        List.getD_cons_succ]
      have hI : oddProd j * ((2 * j : ℕ) + 1 : ℤ) = oddProd (j + 1) := by
        rw [oddProd]
        push_cast
        ring
      have hi : 2 * j + 1 + 1 = 2 * (j + 1) := by omega
      rw [hI, hi, ih m (by omega) f (j + 1) (by omega)]
      have hmod : (m + 2) % 2 = m % 2 := by omega
      by_cases hpar : m % 2 = 0
      · rw [if_pos hpar, if_pos (by omega)]
        congr 1
        omega
      · rw [if_neg hpar, if_neg (by omega)]

/-- The product of the first `k` odd numbers is the double factorial
`(2k−1)!!`. -/
theorem oddProd_eq_doubleFactorial :
    ∀ k : ℕ, oddProd k = doubleFactorial (2 * k - 1) := by
  intro k
  induction k with
  | zero => rfl
  | succ k ih =>
    rcases Nat.eq_zero_or_pos k with rfl | hk
    · decide
    · have h2 : 2 * (k + 1) - 1 = (2 * k - 1) + 2 := by omega
      rw [oddProd, ih, h2, doubleFactorial]
      have h5 : ((2 * k - 1 : ℕ) : ℤ) = 2 * (k : ℤ) - 1 := by
        have hk2 : 1 ≤ 2 * k := by omega
        push_cast [hk2]
        ring
      rw [h5]
      ring

/-- C10: the moment table built inside `compute_weightfactors` for `n`
generators has `2n+1` entries, every odd-index entry is exactly `0`, and
the entry at even index `2k` is exactly the double factorial `(2k−1)!!`
(the normalized moments of the standard Gaussian weight); the table is a
fixed function of `n` alone, independent of the configured family
provider. -/
theorem momentsTable_spec (n k m : ℕ) (hm : m < 2 * n + 1)
    (hmo : m % 2 = 1) (hk : 2 * k < 2 * n + 1) :
    (momentsTable n).length = 2 * n + 1 ∧
    (momentsTable n).getD m 0 = 0 ∧
    (momentsTable n).getD (2 * k) 0 = oddProd k ∧
    oddProd k = doubleFactorial (2 * k - 1) := by
  have h0 : momentsTable n = momentsAux (2 * n + 1) (oddProd 0) (2 * 0) := rfl
  refine ⟨momentsAux_length _ _ _, ?_, ?_, oddProd_eq_doubleFactorial k⟩
  · rw [h0, momentsAux_getD m (2 * n + 1) 0 hm, if_neg (by omega)]
  · rw [h0, momentsAux_getD (2 * k) (2 * n + 1) 0 hk, if_pos (by omega)]
    congr 1
    omega

/-- Concrete instance of `momentsTable_spec`: the moments `1,0,1,0,3`. -/
theorem momentsTable_spec_witness :
    (momentsTable 2).length = 2 * 2 + 1 ∧
    (momentsTable 2).getD 3 0 = 0 ∧
    (momentsTable 2).getD (2 * 2) 0 = oddProd 2 ∧
    oddProd 2 = doubleFactorial (2 * 2 - 1) :=
  momentsTable_spec 2 2 3 (by decide) (by decide) (by decide)

/-- A weight-factor row has one entry per `theta` value scanned. -/
theorem wfRowAux_length (g A : List ℚ) (xi : ℕ) :
    ∀ (rem theta : ℕ) (c : ℚ), (wfRowAux g A xi theta rem c).length = rem := by
  intro rem
  induction rem with
  | zero => intro theta c; rfl
  | succ rem ih =>
    intro theta c
    rw [wfRowAux, List.length_cons, ih]

/-- Entries strictly left of the diagonal are never assigned and keep the
exact zero of the initialized matrix. -/
theorem wfRowAux_getD_zero (g A : List ℚ) (xi : ℕ) :
    ∀ (rem theta : ℕ) (c : ℚ) (m : ℕ), theta + m < xi →
      (wfRowAux g A xi theta rem c).getD m 0 = 0 := by
  intro rem
  induction rem with
  | zero => intro theta c m h; rfl
  | succ rem ih =>
    intro theta c m h
    rw [wfRowAux]
    cases m with
    | zero =>
      rw [List.getD_cons_zero, if_neg]
      omega
    | succ m =>
      rw [List.getD_cons_succ]
      exact ih (theta + 1) _ m (by omega)

/-- `getD` through a map over `List.range`. -/
theorem getD_map_range {α : Type} (n i : ℕ) (f : ℕ → α) (d : α) :
    ((List.range n).map f).getD i d = if i < n then f i else d := by
  rw [List.getD_eq_getElem?_getD, List.getElem?_map]
  by_cases h : i < n
  · rw [if_pos h, List.getElem?_range h]
    rfl
  · rw [if_neg h, List.getElem?_eq_none (by simpa using h)]
    rfl

/-- C6: the `(n+1)×(n+1)` matrix returned by `compute_weightfactors` is
upper-triangular: every entry at position `(xi, theta)` with
`theta < xi` equals the additive identity, the exact zero. -/
theorem compute_weightfactors_upper_triangular (g : List ℚ) (xi theta : ℕ)
    (h : theta < xi) :
    (compute_weightfactors g).length = g.length + 1 ∧
    (∀ row ∈ compute_weightfactors g, row.length = g.length + 1) ∧
    matEntry (compute_weightfactors g) xi theta = 0 := by
  refine ⟨by simp [compute_weightfactors], ?_, ?_⟩
  · intro row hrow
    rw [compute_weightfactors] at hrow
    obtain ⟨x, _, rfl⟩ := List.mem_map.mp hrow
    exact wfRowAux_length g _ x _ 0 1
  · rw [matEntry, compute_weightfactors, getD_map_range]
    by_cases hx : xi < g.length + 1
    · rw [if_pos hx]
      exact wfRowAux_getD_zero g _ xi _ 0 1 theta (by omega)
    · rw [if_neg hx]
      rfl

/-- Concrete instance of `compute_weightfactors_upper_triangular`. -/
theorem compute_weightfactors_upper_triangular_witness :
    (compute_weightfactors [1, 2]).length = List.length [(1 : ℚ), 2] + 1 ∧
    (∀ row ∈ compute_weightfactors [1, 2],
      row.length = List.length [(1 : ℚ), 2] + 1) ∧
    matEntry (compute_weightfactors [1, 2]) 2 0 = 0 :=
  compute_weightfactors_upper_triangular [1, 2] 2 0 (by decide)

/-- A multiplicative fold is the product of the mapped list. -/
theorem foldl_mul_eq_prod {α : Type} (f : α → ℚ) :
    ∀ (l : List α) (c : ℚ), l.foldl (fun w a => w * f a) c = c * (l.map f).prod := by
  intro l
  induction l with
  | nil => intro c; simp
  | cons a l ih =>
    intro c
    rw [List.foldl_cons, ih, List.map_cons, List.prod_cons]
    ring

/-- An additive fold is the sum of the mapped list. -/
theorem foldl_add_eq_sum {α : Type} (f : α → ℚ) :
    ∀ (l : List α) (c : ℚ), l.foldl (fun s a => s + f a) c = c + (l.map f).sum := by
  intro l
  induction l with
  | nil => intro c; simp
  | cons a l ih =>
    intro c
    rw [List.foldl_cons, ih, List.map_cons, List.sum_cons]
    ring

/-- C1 (amended): `compute_weights(P, K, W, workingPrec)` returns the
scalar `Σ_Q Π_d W[P[d]][P[d]+Q[d]]` (over all D-tuples `Q` of
nonnegative integers summing to `K − sum(P)`) divided by `2^k` when the
partition has `k > 0` nonzero entries, and undivided when `k = 0`. -/
theorem compute_weights_formula (P : List ℕ) (K : ℕ) (Wf : List (List ℚ)) :
    compute_weights P K Wf =
      [if 0 < nnz P then
        ((latticePoints P.length (K - sumP P)).map (fun Q =>
          ((List.range P.length).map (fun d =>
            matEntry Wf (P.getD d 0) (P.getD d 0 + Q.getD d 0))).prod)).sum /
          2 ^ nnz P
       else
        ((latticePoints P.length (K - sumP P)).map (fun Q =>
          ((List.range P.length).map (fun d =>
            matEntry Wf (P.getD d 0) (P.getD d 0 + Q.getD d 0))).prod)).sum] := by
  have hsum : weightSum P K Wf =
      ((latticePoints P.length (K - sumP P)).map (fun Q =>
        ((List.range P.length).map (fun d =>
          matEntry Wf (P.getD d 0) (P.getD d 0 + Q.getD d 0))).prod)).sum := by
    rw [weightSum]
    rw [foldl_add_eq_sum, zero_add]
    congr 1
    apply List.map_congr_left
    intro Q _
    rw [foldl_mul_eq_prod, one_mul]
  by_cases h : 0 < nnz P
  · rw [compute_weights, if_pos h, if_pos h, hsum]
    have hsh : ((2 <<< (nnz P - 1) : ℕ) : ℚ) = 2 ^ nnz P := by
      rw [Nat.shiftLeft_eq]
      push_cast
      rw [← pow_succ']
      congr 1
      omega
    rw [hsh]
  · rw [compute_weights, if_neg h, if_neg h, hsum]

/-- C1 fails as stated: for `D = 1`, `P = (1)`, `K = 1` and the table
with `W[1][1] = 1`, the lattice sum is `1` and the code divides by
`2 << (k−1) = 2^k = 2` (giving `1/2`), not by `2^(k−1) = 1`. -/
theorem compute_weights_claim_cex :
    compute_weights [1] 1 [[0, 0], [0, 1]] ≠
      [((latticePoints (List.length [1]) (1 - sumP [1])).map (fun Q =>
          ((List.range (List.length [1])).map (fun d =>
            matEntry [[0, 0], [0, 1]] (List.getD [1] d 0)
              (List.getD [1] d 0 + Q.getD d 0))).prod)).sum /
        2 ^ (nnz [1] - 1)] := by
  rw [compute_weights_formula]
  have hS : ((latticePoints (List.length [1]) (1 - sumP [1])).map (fun Q =>
      ((List.range (List.length [1])).map (fun d =>
        matEntry [[0, 0], [0, 1]] (List.getD [1] d 0)
          (List.getD [1] d 0 + Q.getD d 0))).prod)).sum = 1 := by
    simp [latticePoints, compositions, sumP, matEntry, List.range_succ]
  have hnnz : nnz [1] = 1 := by decide
  rw [hS, hnnz]
  norm_num

/-- Members of `compositions D K` have length `D` and sum `K`. -/
theorem mem_compositions :
    ∀ (D K : ℕ) (P : List ℕ), P ∈ compositions D K →
      P.length = D ∧ P.sum = K := by
  intro D
  induction D with
  | zero =>
    intro K P hP
    rw [compositions] at hP
    by_cases hK : K = 0
    · subst hK
      simp at hP
      subst hP
      simp
    · rw [if_neg hK] at hP
      simp at hP
  | succ D ih =>
    intro K P hP
    rw [compositions] at hP
    simp only [List.mem_flatten, List.mem_map] at hP
    obtain ⟨_, ⟨i, hi, rfl⟩, hP⟩ := hP
    obtain ⟨t, ht, rfl⟩ := List.mem_map.mp hP
    obtain ⟨hlen, hsum⟩ := ih (K - i) t ht
    have hiK : i ≤ K := by
      simp only [List.mem_range] at hi
      omega
    refine ⟨by simp [hlen], ?_⟩
    rw [List.sum_cons, hsum]
    omega

/-- `compositions D 0` contains exactly the all-zero tuple. -/
theorem compositions_zero : ∀ D : ℕ, compositions D 0 = [List.replicate D 0] := by
  intro D
  induction D with
  | zero => rfl
  | succ D ih =>
    rw [compositions]
    simp [List.range_succ, ih, List.replicate_succ]

/-- The all-zero tuple is nonincreasing. -/
theorem nonincreasing_replicate_zero :
    ∀ D : ℕ, nonincreasing (List.replicate D 0) = true := by
  intro D
  induction D with
  | zero => rfl
  | succ D ih =>
    cases D with
    | zero => rfl
    | succ D' =>
      rw [List.replicate_succ, List.replicate_succ, nonincreasing]
      rw [← List.replicate_succ]
      simpa using ih

/-- `Partitions(D, 0)` enumerates exactly the all-zero partition. -/
theorem partitionsList_zero (D : ℕ) :
    partitionsList D 0 = [List.replicate D 0] := by
  rw [partitionsList, compositions_zero, List.filter_cons_of_pos]
  · rfl
  · exact nonincreasing_replicate_zero D

/-- In-range indexing of the Z-sequence as an option. -/
theorem get?_eq_some_getD (l : List ℕ) (n : ℕ) (h : n < l.length) :
    l.get? n = some (l.getD n 0) := by
  rw [List.get?_eq_getElem?, List.getD_eq_getElem?_getD,
    List.getElem?_eq_getElem h]
  rfl

/-- On partitions whose parts all lie inside the table, the admissibility
sum is total. -/
theorem defectSum_eq :
    ∀ P : List ℕ, (∀ p ∈ P, p < 27) →
      defectSum P = some (defectSumD P) := by
  intro P
  induction P with
  | nil => intro _; rfl
  | cons p rest ih =>
    intro h
    have hp : p < 27 := h p (List.mem_cons_self p rest)
    have hz : Zseq.get? p = some (Zseq.getD p 0) :=
      get?_eq_some_getD Zseq p (by simpa [Zseq] using hp)
    rw [defectSum, hz, ih (fun q hq => h q (List.mem_cons_of_mem p hq))]
    simp [defectSumD]

/-- A part beyond the table makes the admissibility sum an out-of-range
read. -/
theorem defectSum_none :
    ∀ (P : List ℕ) (p : ℕ), p ∈ P → 26 < p → defectSum P = none := by
  intro P
  induction P with
  | nil => intro p hp; exact absurd hp (List.not_mem_nil p)
  | cons q rest ih =>
    intro p hp h26
    rcases List.mem_cons.mp hp with rfl | hp'
    · have hz : Zseq.get? p = none := by
        rw [List.get?_eq_getElem?, List.getElem?_eq_none]
        simp [Zseq]
        omega
      rw [defectSum, hz]
    · rw [defectSum, ih p hp' h26]
      cases Zseq.get? q <;> rfl

/-- Closed form of the partition loop when every part is inside the
Z-table: the contributions of exactly the admissible partitions, in
order. -/
theorem gkLoop_some (K : ℕ) (gens : List ℚ) (Wf : List (List ℚ)) :
    ∀ (l : List (List ℕ)) (acc : List (List ℚ) × List ℚ),
      (∀ P ∈ l, ∀ p ∈ P, p < 27) →
      gkLoop K gens Wf l acc = some
        (acc.1 ++ ((l.filter (fun P => decide (defectSumD P ≤ K))).map
          (fun P => compute_nodes P gens)).flatten,
         acc.2 ++ ((l.filter (fun P => decide (defectSumD P ≤ K))).map
          (fun P => (compute_nodes P gens).map
            (fun _ => (compute_weights P K Wf).getD 0 0))).flatten) := by
  intro l
  induction l with
  | nil => intro acc _; simp [gkLoop]
  | cons P rest ih =>
    intro acc h
    have hP : ∀ p ∈ P, p < 27 := h P (List.mem_cons_self P rest)
    have hrest : ∀ Q ∈ rest, ∀ p ∈ Q, p < 27 :=
      fun Q hQ => h Q (List.mem_cons_of_mem P hQ)
    by_cases hle : defectSumD P ≤ K
    · have hf : (P :: rest).filter (fun Q => decide (defectSumD Q ≤ K)) =
          P :: rest.filter (fun Q => decide (defectSumD Q ≤ K)) :=
        List.filter_cons_of_pos (decide_eq_true hle)
      rw [hf, gkLoop, defectSum_eq P hP]
      dsimp only
      rw [if_pos hle, ih _ hrest]
      simp [List.append_assoc]
    · have hf : (P :: rest).filter (fun Q => decide (defectSumD Q ≤ K)) =
          rest.filter (fun Q => decide (defectSumD Q ≤ K)) :=
        List.filter_cons_of_neg (by simpa using hle)
      rw [hf, gkLoop, defectSum_eq P hP]
      dsimp only
      rw [if_neg hle]
      exact ih _ hrest

/-- Any enumerated partition with an out-of-table part poisons the whole
loop (the unguarded `Z[P[d]]` read). -/
theorem gkLoop_none (K : ℕ) (gens : List ℚ) (Wf : List (List ℚ)) :
    ∀ (l : List (List ℕ)) (acc : List (List ℚ) × List ℚ),
      (∃ P ∈ l, defectSum P = none) → gkLoop K gens Wf l acc = none := by
  intro l
  induction l with
  | nil => intro acc h; simp at h
  | cons Q rest ih =>
    intro acc h
    rcases h with ⟨P, hP, hnone⟩
    rcases List.mem_cons.mp hP with rfl | hP'
    · rw [gkLoop, hnone]
    · cases hq : defectSum Q with
      | none => rw [gkLoop, hq]
      | some s =>
        rw [gkLoop, hq]
        dsimp only
        by_cases hle : s ≤ K
        · rw [if_pos hle]
          exact ih _ ⟨P, hP', hnone⟩
        · rw [if_neg hle]
          exact ih _ ⟨P, hP', hnone⟩

/-- Every part of an enumerated partition of `K` is at most `K`. -/
theorem parts_le_K (D K : ℕ) :
    ∀ P ∈ partitionsList D K, ∀ p ∈ P, p ≤ K := by
  intro P hP p hp
  have hc : P ∈ compositions D K := List.mem_of_mem_filter hP
  have hsum := (mem_compositions D K P hc).2
  calc p ≤ P.sum := List.single_le_sum (fun x _ => Nat.zero_le x) p hp
    _ = K := hsum

/-- C3: a partition `P` enumerated by `Partitions(D, K)` contributes
nodes and weights to the output iff `Σ_d (P[d] + Z[P[d]]) ≤ K`, with `Z`
the literal 27-entry defect table; the lookup is in bounds for every
partition exactly when all parts are at most 26 (guaranteed when
`K ≤ 26`, since every part is at most `K`), and a partition containing a
part beyond 26 makes the unguarded lookup read out of range (modelled as
`none`). -/
theorem genz_keister_admissibility (D K : ℕ) (gens : List ℚ)
    (Wf : List (List ℚ)) :
    (∀ P ∈ partitionsList D K, ∀ p ∈ P, p ≤ K) ∧
    (Zseq.length = 27 ∧ ∀ p : ℕ, (Zseq.get? p).isSome ↔ p < 27) ∧
    (K ≤ 26 →
      genz_keister_construction D K gens Wf = some
        ((((partitionsList D K).filter
            (fun P => decide (defectSumD P ≤ K))).map
          (fun P => compute_nodes P gens)).flatten,
         (((partitionsList D K).filter
            (fun P => decide (defectSumD P ≤ K))).map
          (fun P => (compute_nodes P gens).map
            (fun _ => (compute_weights P K Wf).getD 0 0))).flatten)) ∧
    ((∃ P ∈ partitionsList D K, ∃ p ∈ P, 26 < p) →
      genz_keister_construction D K gens Wf = none) := by
  refine ⟨parts_le_K D K, ⟨rfl, ?_⟩, ?_, ?_⟩
  · intro p
    constructor
    · intro hs
      by_contra hge
      rw [List.get?_eq_none.mpr (by simp [Zseq]; omega)] at hs
      simp at hs
    · intro hlt
      rw [get?_eq_some_getD Zseq p (by simpa [Zseq] using hlt)]
      rfl
  · intro hK
    have h27 : ∀ P ∈ partitionsList D K, ∀ p ∈ P, p < 27 := by
      intro P hP p hp
      have := parts_le_K D K P hP p hp
      omega
    rw [genz_keister_construction, gkLoop_some K gens Wf _ _ h27]
    simp
  · rintro ⟨P, hP, p, hp, h26⟩
    rw [genz_keister_construction]
    exact gkLoop_none K gens Wf _ _ ⟨P, hP, defectSum_none P p hp h26⟩

/-- Concrete instance of `genz_keister_admissibility`: for `K = 27` the
single-part partition `(27)` drives the lookup out of range. -/
theorem genz_keister_admissibility_witness :
    (∀ P ∈ partitionsList 1 27, ∀ p ∈ P, p ≤ 27) ∧
    genz_keister_construction 1 27 [] [] = none :=
  ⟨(genz_keister_admissibility 1 27 [] []).1,
   (genz_keister_admissibility 1 27 [] []).2.2.2
     ⟨[27], by decide, 27, by decide, by decide⟩⟩

/-- The all-zero partition has no nonzero entries. -/
theorem nnz_replicate_zero (D : ℕ) : nnz (List.replicate D 0) = 0 := by
  induction D with
  | zero => rfl
  | succ D ih =>
    rw [List.replicate_succ, nnz, List.countP_cons_of_neg]
    · rw [nnz] at ih
      exact ih
    · decide

/-- The all-zero partition has admissibility sum `0`. -/
theorem defectSumD_replicate_zero (D : ℕ) :
    defectSumD (List.replicate D 0) = 0 := by
  simp [defectSumD, List.map_replicate, Zseq]

/-- Reading any position of an all-zero tuple gives `0`. -/
theorem getD_replicate_zero (n d : ℕ) :
    (List.replicate n (0 : ℕ)).getD d 0 = 0 := by
  rcases Nat.lt_or_ge d n with h | h
  · rw [List.getD_eq_getElem _ _ (by simpa using h)]
    simp
  · rw [List.getD_eq_default]
    simpa using h

/-- The top-left weight factor is always the exact `1`
(`a_0 = 1` divided by the initial running product `c = 1`). -/
theorem matEntry_wf_00 (g : List ℚ) :
    matEntry (compute_weightfactors g) 0 0 = 1 := by
  rw [matEntry, compute_weightfactors, getD_map_range,
    if_pos (Nat.succ_pos g.length), wfRowAux, List.getD_cons_zero,
    if_pos (le_refl 0)]
  simp [computeA]

/-- At `K = 0` the single admissible partition carries weight exactly
`1`, the order-0 normalized moment. -/
theorem compute_weights_K0 (D : ℕ) (gens : List ℚ) :
    compute_weights (List.replicate D 0) 0 (compute_weightfactors gens) =
      [1] := by
  rw [compute_weights_formula, if_neg (by rw [nnz_replicate_zero]; omega)]
  have hsum0 : sumP (List.replicate D 0) = 0 := by simp [sumP]
  rw [hsum0, List.length_replicate, latticePoints, compositions_zero]
  rw [List.map_cons, List.map_nil, List.sum_cons, List.sum_nil]
  rw [List.prod_eq_one, add_zero]
  intro x hx
  obtain ⟨d, _, rfl⟩ := List.mem_map.mp hx
  rw [getD_replicate_zero]
  exact matEntry_wf_00 gens

/-- Evaluation of the whole construction at `K = 0`: one partition, one
ordering, one sign pattern, weight `1`. -/
theorem gk_K0_eval (D : ℕ) (gens : List ℚ) :
    genz_keister_construction D 0 gens (compute_weightfactors gens) =
      some ([List.replicate D (gens.getD 0 0)], [1]) := by
  rw [genz_keister_construction, partitionsList_zero]
  have hd : defectSum (List.replicate D 0) = some 0 := by
    have h27 : ∀ p ∈ List.replicate D 0, p < 27 := by
      intro p hp
      rw [List.eq_of_mem_replicate hp]
      omega
    rw [defectSum_eq _ h27, defectSumD_replicate_zero]
  rw [gkLoop, hd]
  dsimp only
  rw [if_pos (le_refl 0), gkLoop]
  rw [compute_nodes_replicate_zero, compute_weights_K0]
  simp

/-- C4 (amended): for `K = 0` and every dimension `D`, with a non-empty
generator list and the weight factor table built from it,
`genz_keister_construction` returns exactly one node, all of whose `D`
coordinates equal the generator at index `0` (the origin precisely when
that generator is zero), and its single weight is the exact `1` — the
order-0 normalized moment of the weight function. -/
theorem genz_keister_K0 (D : ℕ) (gens : List ℚ) (_hne : gens ≠ []) :
    genz_keister_construction D 0 gens (compute_weightfactors gens) =
      some ([List.replicate D (gens.getD 0 0)], [1]) ∧
    (momentsTable gens.length).getD 0 0 = 1 := by
  refine ⟨gk_K0_eval D gens, ?_⟩
  rw [momentsTable, momentsAux, if_pos (by omega), List.getD_cons_zero]

/-- Concrete instance of `genz_keister_K0`. -/
theorem genz_keister_K0_witness :
    genz_keister_construction 1 0 [(0 : ℚ)] (compute_weightfactors [0]) =
      some ([List.replicate 1 (List.getD [(0 : ℚ)] 0 0)], [1]) ∧
    (momentsTable (List.length [(0 : ℚ)])).getD 0 0 = 1 :=
  genz_keister_K0 1 [0] (by decide)

/-- C4 fails as stated: with the non-empty generator list `(1)` the
`K = 0` rule's single node is `(1)`, not the origin — the node's
coordinates are copies of `generators[0]`, whatever it is. -/
theorem genz_keister_K0_claim_cex :
    genz_keister_construction 1 0 [(1 : ℚ)] (compute_weightfactors [1]) =
      some ([[(1 : ℚ)]], [1]) ∧ [[(1 : ℚ)]] ≠ [[(0 : ℚ)]] := by
  constructor
  · have h := gk_K0_eval 1 [(1 : ℚ)]
    simpa using h
  · decide

/-- The extension loop appends exactly the sorted roots of the solvable
prefix of levels. -/
theorem cgLoop_eq (findExt : List ℚ → ℕ → Option (List ℚ))
    (rootsOf : List ℚ → List Ball) :
    ∀ (ps : List ℕ) (Pn : List ℚ) (G : List Ball),
      cgLoop findExt rootsOf ps Pn G =
        G ++ ((extSteps findExt Pn ps).1.map
          (fun Ep => maxminsort (rootsOf Ep))).flatten := by
  intro ps
  induction ps with
  | nil => intro Pn G; simp [cgLoop, extSteps]
  | cons p ps ih =>
    intro Pn G
    rw [cgLoop, extSteps]
    cases findExt Pn p with
    | none => simp
    | some Ep =>
      dsimp only
      rw [ih]
      simp [List.append_assoc]

/-- Never more extension polynomials than requested levels. -/
theorem extSteps_length_le (findExt : List ℚ → ℕ → Option (List ℚ)) :
    ∀ (ps : List ℕ) (Pn : List ℚ),
      (extSteps findExt Pn ps).1.length ≤ ps.length := by
  intro ps
  induction ps with
  | nil => intro Pn; simp [extSteps]
  | cons p ps ih =>
    intro Pn
    rw [extSteps]
    cases findExt Pn p with
    | none => simp
    | some Ep =>
      dsimp only
      rw [List.length_cons, List.length_cons]
      exact Nat.succ_le_succ (ih _)

/-- All levels were solvable iff the extension list is full length. -/
theorem extSteps_complete_iff (findExt : List ℚ → ℕ → Option (List ℚ)) :
    ∀ (ps : List ℕ) (Pn : List ℚ),
      (extSteps findExt Pn ps).2 = true ↔
        (extSteps findExt Pn ps).1.length = ps.length := by
  intro ps
  induction ps with
  | nil => intro Pn; simp [extSteps]
  | cons p ps ih =>
    intro Pn
    rw [extSteps]
    cases findExt Pn p with
    | none => simp
    | some Ep =>
      dsimp only
      rw [List.length_cons, List.length_cons, ih]
      omega

/-- C8 (amended): on every NON-empty levels sequence,
`compute_generators` raises no fault: it returns the concatenation, over
the solvable prefix of the requested levels, of each level's
max-min-sorted roots — never more levels than requested, all of them
exactly when every extension search succeeded, and only the generators
of the levels before the first failure otherwise.  On the empty levels
sequence the source performs an unguarded out-of-bounds read of
`levels[0]` (modelled as `none`). -/
theorem compute_generators_spec (hermite : ℕ → List ℚ)
    (findExt : List ℚ → ℕ → Option (List ℚ))
    (rootsOf : List ℚ → List Ball) (p0 : ℕ) (rest : List ℕ) :
    compute_generators hermite findExt rootsOf (p0 :: rest) =
      some (maxminsort (rootsOf (hermite p0)) ++
        ((extSteps findExt (hermite p0) rest).1.map
          (fun Ep => maxminsort (rootsOf Ep))).flatten) ∧
    (extSteps findExt (hermite p0) rest).1.length ≤ rest.length ∧
    ((extSteps findExt (hermite p0) rest).2 = true ↔
      (extSteps findExt (hermite p0) rest).1.length = rest.length) :=
  ⟨congrArg some (cgLoop_eq findExt rootsOf rest (hermite p0) _),
   extSteps_length_le findExt rest (hermite p0),
   extSteps_complete_iff findExt rest (hermite p0)⟩

/-- C8 fails as stated: quantified over EVERY levels sequence, the claim
asserts a fault-free return, but on the empty sequence the source reads
`levels[0]` out of bounds before any loop runs — no generator list is
returned (modelled as `none`). -/
theorem compute_generators_claim_cex :
    compute_generators (fun _ => [1]) (fun _ _ => none) (fun _ => []) [] =
      none :=
  rfl

